import Mathlib

/-!
Verification of the step-sequence execution engine and lazy template
dependency resolver of the Garden orchestration platform.

The definitions below are shallow embeddings of the TypeScript sources:
  - `core/src/commands/helpers/steps.ts` (step specs, drop predicate,
    step execution loop, template resolution for steps)
  - `core/src/template/lazy-resolve.ts` (reference scanner and lazy
    dependency resolver, bundled in `core/src/outputs.ts` here)
  - `core/src/config/template-contexts/custom-command.ts`
    (per-step template context with forward/self-reference sentinels)

JavaScript machine details are made explicit: object/Map assignment is an
ordered overwrite-or-append on association lists, JS truthiness is the
`truthy` predicate on primitive values, and exceptions are `Except`.
External collaborators (process spawning, the task scheduler, the config
graph) are oracles passed as function arguments, with an event trace
recording each call so that "never touches the scheduler" style claims
are statable.
-/

namespace Garden

/-- JS primitive values, as they appear in step argument lists, env maps and
script fields. -/
inductive Value where
  | str (s : String)
  | num (n : Int)
  | bool (b : Bool)
  | null
deriving DecidableEq, Repr

/-- JS truthiness on primitive values (`!!v`): the empty string, zero, `false`
and `null` are falsy. -/
def truthy : Value → Bool
  | .str s => s ≠ ""
  | .num n => n ≠ 0
  | .bool b => b
  | .null => false

/-- `when` modifier on a step (`StepModifier` in `steps.ts`). -/
inductive StepModifier where
  | onSuccess
  | onError
  | always
  | never
deriving DecidableEq, Repr

/-- `step.exec` payload: an external command plus env. -/
structure ExecSpec where
  command : List Value
  env : List (String × Value)
deriving DecidableEq, Repr

/-- A step specification (`StepSpec` in `steps.ts`). Optional fields are
`Option`; an absent `when` behaves like `onSuccess` in the drop predicate,
exactly as the JS `step.when === "..."` comparisons treat `undefined`. -/
structure StepSpec where
  name : Option String := none
  description : Option String := none
  when : Option StepModifier := none
  skip : Bool := false
  continueOnError : Bool := false
  command : Option (List Value) := none
  gardenCommand : Option (List Value) := none
  exec : Option ExecSpec := none
  script : Option Value := none
deriving DecidableEq, Repr

/-- An error value; only identity matters to the executor. -/
structure Err where
  msg : String
deriving DecidableEq, Repr

/-- `StepErrors`: the JS object keyed by step index, modelled as an ordered
association list. `!!stepErrors[index]` is presence of the key (a JS array is
truthy even when empty). -/
abbrev StepErrors : Type := List (Nat × List Err)

/-- Lookup of `stepErrors[index]`. -/
def errLookup (e : StepErrors) (i : Nat) : Option (List Err) :=
  (List.find? (fun p => p.1 = i) e).map (·.2)

/-- Assignment `stepErrors[index] = errs` on the association list: overwrite
in place if present, append otherwise. -/
def setErr (e : StepErrors) (i : Nat) (errs : List Err) : StepErrors :=
  if (List.any e (fun p => p.1 = i)) then
    List.map (fun p => if p.1 = i then (i, errs) else p) e
  else
    e ++ [(i, errs)]

/-- The `lastErrorIndex` computation in `shouldBeDropped`:
`last(steps.filter((s, index) => s.when !== "onError" && !!stepErrors[index]).map((_, index) => index))`.
Note that the `.map` enumerates the **filtered** array, so the result is
(number of matching steps) - 1, not the original index of the last match. -/
def lastErrorIndex (steps : List StepSpec) (stepErrors : StepErrors) : Option Nat :=
  (((steps.enum.filter fun p => p.2.when ≠ some .onError ∧ (errLookup stepErrors p.1).isSome).enum.map
    (fun q => q.1))).getLast?

/-- `shouldBeDropped(stepIndex, steps, stepErrors)` from `steps.ts`. Out-of-range
indices (which would fault in JS) return `false`; the executor only calls this
in range. -/
def shouldBeDropped (stepIndex : Nat) (steps : List StepSpec) (stepErrors : StepErrors) : Bool :=
  match steps.get? stepIndex with
  | none => false
  | some step =>
    if step.when = some .always then false
    else if step.when = some .never then true
    else
      let lastErr := lastErrorIndex steps stepErrors
      if step.when = some .onError then
        match lastErr with
        | none => true
        | some lastIdx =>
          let previousOnErrorStepIndexes :=
            (steps.enum.filter fun p =>
              p.2.when = some .onError ∧ lastIdx < p.1 ∧ p.1 < stepIndex).map (fun p => p.1)
          previousOnErrorStepIndexes.any fun prevOnErrorIdx =>
            steps.enum.any fun q =>
              ¬(q.2.when = some .never ∨ q.2.when = some .onError) ∧
                prevOnErrorIdx < q.1 ∧ q.1 < stepIndex
      else lastErr.isSome

/-- Whether a qualifying prior failure exists per the spec (section 4.4): a step
at an earlier index whose `when` is not `onError` and which has a recorded
error. Written from the spec's words, for comparison with `shouldBeDropped`. -/
def qualifyingPriorFailure (stepIndex : Nat) (steps : List StepSpec) (stepErrors : StepErrors) : Bool :=
  steps.enum.any fun p =>
    p.1 < stepIndex ∧ p.2.when ≠ some .onError ∧ (errLookup stepErrors p.1).isSome

/-- The index of the last qualifying prior failure, per the spec's intent: the
greatest qualifying original step index (not the filtered-array position). -/
def lastQualifyingFailureIndex (stepIndex : Nat) (steps : List StepSpec) (stepErrors : StepErrors) :
    Option Nat :=
  ((steps.enum.filter fun p =>
    p.1 < stepIndex ∧ p.2.when ≠ some .onError ∧ (errLookup stepErrors p.1).isSome).map
      (fun p => p.1)).getLast?

/-- The drop predicate as the spec's section 4.4 table states it. An `onError`
step is dropped iff no qualifying prior failure exists, or the failure-handling
chain (the `onError` steps following the last qualifying failure) was already
closed by an intervening non-`onError`, non-`never` step. -/
def shouldBeDroppedSpec (stepIndex : Nat) (steps : List StepSpec) (stepErrors : StepErrors) : Bool :=
  match steps.get? stepIndex with
  | none => false
  | some step =>
    if step.when = some .always then false
    else if step.when = some .never then true
    else if step.when = some .onError then
      match lastQualifyingFailureIndex stepIndex steps stepErrors with
      | none => true
      | some lastIdx =>
        ((steps.enum.filter fun p =>
            p.2.when = some .onError ∧ lastIdx < p.1 ∧ p.1 < stepIndex).map (fun p => p.1)).any
          fun prevOnErrorIdx =>
            steps.enum.any fun q =>
              ¬(q.2.when = some .never ∨ q.2.when = some .onError) ∧
                prevOnErrorIdx < q.1 ∧ q.1 < stepIndex
    else qualifyingPriorFailure stepIndex steps stepErrors

/-! ## The step execution loop (`executeSteps` in `steps.ts`) -/

/-- Output map of one step (`DeepPrimitiveMap`), as an association list. -/
abbrev Outputs : Type := List (String × Value)

/-- `StepResult` from `steps.ts`. -/
structure StepResult where
  number : Nat
  outputs : Outputs
  log : String
deriving DecidableEq, Repr

/-- `ExecuteStepsResult`: outputs keyed by step name, errors keyed by step
index. The `steps` JS object is an ordered association list. -/
structure ExecuteStepsResult where
  steps : List (String × StepResult)
  errors : StepErrors
deriving DecidableEq, Repr

/-- JS object/Map assignment `m[k] = v`: overwrite in place when the key is
present, append otherwise. -/
def setKey {α : Type} (m : List (String × α)) (k : String) (v : α) : List (String × α) :=
  if (List.any m (fun p => p.1 = k)) then
    List.map (fun p => if p.1 = k then (k, v) else p) m
  else
    m ++ [(k, v)]

/-- Key lookup on a JS object/Map modelled as an association list. -/
def lookupKey {α : Type} (m : List (String × α)) (k : String) : Option α :=
  (List.find? (fun p => p.1 = k) m).map (·.2)

/-- `getStepName(index, name)` from `steps.ts`: `name || "step-<index+1>"`.
The empty string is falsy in JS, so it also falls back to the default. -/
def getStepName (index : Nat) (name : Option String) : String :=
  match name with
  | some n => if n ≠ "" then n else "step-" ++ toString (index + 1)
  | none => "step-" ++ toString (index + 1)

/-- `hasStepAction(step)`: `!!(step.command || step.gardenCommand || step.exec
|| step.script)`. An array or object is always truthy (even when empty), while
`script` is a string and the empty string is falsy. -/
def hasStepAction (step : StepSpec) : Bool :=
  step.command.isSome || step.gardenCommand.isSome || step.exec.isSome ||
    (match step.script with
     | some v => truthy v
     | none => false)

/-- What the `try { resolveStepTemplates(...); await runStep(...) }` block of
one iteration amounts to, provided by the environment as an oracle per step
index: either an exception (from template resolution or dispatch), or a
`CommandResult` with an optional result object and a list of structured
errors. -/
inductive StepOutcome where
  | throws (e : Err)
  | result (res : Option Outputs) (errors : List Err)
deriving DecidableEq, Repr

/-- The `for (const [index, step] of steps.entries())` loop body of
`executeSteps`, iterating over the enumerated step list. `run i` is the
outcome of resolving and dispatching step `i`, `logOf i` is the captured body
log for step `i`. The returned trace lists, in order, the indices whose
operation block actually executed. An uncaught `InternalError` (a step with no
operation variant) surfaces as `Except.error`, whereas the `break` on an
exception inside the try-block returns the partial result as `Except.ok`. -/
def stepsLoopAux (steps : List StepSpec) (run : Nat → StepOutcome) (logOf : Nat → String) :
    List (Nat × StepSpec) → ExecuteStepsResult → List Nat →
      Except Err ExecuteStepsResult × List Nat
  | [], acc, ran => (Except.ok acc, ran)
  | (i, step) :: rest, acc, ran =>
    if shouldBeDropped i steps acc.errors then
      stepsLoopAux steps run logOf rest acc ran
    else if step.skip then
      stepsLoopAux steps run logOf rest
        { acc with steps := setKey acc.steps (getStepName i step.name) ⟨i + 1, [], ""⟩ } ran
    else if ¬ hasStepAction step then
      (Except.error ⟨"Step must specify a command, gardenCommand, exec, or script."⟩, ran)
    else
      match run i with
      | .throws e =>
        (Except.ok { acc with errors := setErr acc.errors i [e] }, ran ++ [i])
      | .result res errs =>
        let acc' :=
          { acc with
            steps := setKey acc.steps (getStepName i step.name) ⟨i + 1, res.getD [], logOf i⟩ }
        if errs.length > 0 then
          if ¬ step.continueOnError then
            stepsLoopAux steps run logOf rest
              { acc' with errors := setErr acc'.errors i errs } (ran ++ [i])
          else
            stepsLoopAux steps run logOf rest acc' (ran ++ [i])
        else
          stepsLoopAux steps run logOf rest acc' (ran ++ [i])

/-- `executeSteps(params)`: run the loop over the whole enumerated step list,
starting from an empty result. -/
def executeSteps (steps : List StepSpec) (run : Nat → StepOutcome) (logOf : Nat → String) :
    Except Err ExecuteStepsResult × List Nat :=
  stepsLoopAux steps run logOf steps.enum ⟨[], []⟩ []

/-! ## Per-step template resolution (`resolveStepTemplates` in `steps.ts`) -/

/-- `resolveStepTemplates(step, context)` from `steps.ts`. The template
evaluator `deepEvaluate` is applied to each primitive leaf; it is passed as
the oracle `ev`. `command` and `gardenCommand` arrays are additionally
filtered with `.filter((arg) => !!arg)`, removing every element that
evaluates to a falsy value. The JS function mutates the step object in
place; here the overwritten step is returned. `if (step.script)` tests JS
truthiness of a string, so an empty script is left untouched. -/
def resolveStepTemplates (ev : Value → Value) (step : StepSpec) : StepSpec :=
  let step :=
    match step.command with
    | some c => { step with command := some ((c.map ev).filter truthy) }
    | none => step
  let step :=
    match step.gardenCommand with
    | some c => { step with gardenCommand := some ((c.map ev).filter truthy) }
    | none => step
  let step :=
    match step.exec with
    | some e =>
      { step with
        exec := some ⟨e.command.map ev, e.env.map (fun (p : String × Value) => (p.1, ev p.2))⟩ }
    | none => step
  match step.script with
  | some s => if truthy s then { step with script := some (ev s) } else step
  | none => step

/-! ## The per-step template context (`CustomCommandStepContext`) -/

/-- One entry of the `steps` map of `CustomCommandStepContext`: either a real
`WorkflowStepContext` wrapping a recorded step result, or an `ErrorContext`
sentinel that raises its message only when the entry is dereferenced. -/
inductive StepContextEntry where
  | errorCtx (message : String)
  | stepCtx (result : StepResult)
deriving DecidableEq, Repr

/-- The `ErrorContext` message used for a forward reference. -/
def forwardRefMessage (name stepName : String) : String :=
  "Step " ++ name ++ " is referenced in a template for step " ++ stepName ++
    ", but step " ++ name ++ " is later in the execution order. Only previous steps can be referenced."

/-- The `ErrorContext` message used for a self reference. -/
def selfRefMessage (stepName : String) : String :=
  "Step " ++ stepName ++ " references itself in a template. Only previous steps can be referenced."

/-- The `steps` map built by the `CustomCommandStepContext` constructor: first
every step name is bound to a forward-reference `ErrorContext`, then the
current step's name to a self-reference `ErrorContext`, then every already
resolved step overwrites its name with a real `WorkflowStepContext`. The
construction itself performs no template evaluation and never raises. -/
def buildStepsContext (allStepNames : List String) (stepName : String)
    (resolvedSteps : List (String × StepResult)) : List (String × StepContextEntry) :=
  let m := allStepNames.foldl
    (fun m name => setKey m name (.errorCtx (forwardRefMessage name stepName))) []
  let m := setKey m stepName (.errorCtx (selfRefMessage stepName))
  resolvedSteps.foldl (fun m p => setKey m p.1 (.stepCtx p.2)) m

/-- Dereferencing `steps.<name>` during template evaluation: reading an
`ErrorContext` entry raises its message; reading a real entry yields the
step result. Entries are only inspected here, never at map construction. -/
def derefStep (m : List (String × StepContextEntry)) (name : String) : Except String StepResult :=
  match lookupKey m name with
  | some (.stepCtx r) => Except.ok r
  | some (.errorCtx msg) => Except.error msg
  | none => Except.error ("Could not find key " ++ name)

/-! ## Reference scanner and lazy dependency resolver
(`scanTemplateReferences` / `resolveTemplateNeeds` in `lazy-resolve.ts`) -/

/-- One segment of a context lookup key path: template paths mix string keys
and numeric indices, and the scanner's `isString` checks distinguish them. -/
inductive Seg where
  | str (s : String)
  | num (n : Nat)
deriving DecidableEq, Repr

/-- One context lookup reference found by the template visitor
(`getContextLookupReferences`). The visitor itself lives outside the sources
at hand, so the scanner is embedded over the list of findings it yields. -/
structure Finding where
  keyPath : List Seg
deriving DecidableEq, Repr

/-- `ActionTemplateReference`: an action reference `{kind, name, keyPath}`
extracted from an `actions.*` or legacy `runtime.*` lookup. -/
structure ActionTemplateReference where
  kind : String
  name : String
  keyPath : List Seg
deriving DecidableEq, Repr

/-- Modelled from the spec: `extractRuntimeReference` (from
`config/references.ts`, not among the sources) treats a `runtime.*` lookup as
a legacy action back-reference and converts it to an action reference;
`runtime.services.*` names a Deploy and `runtime.tasks.*` a Run. -/
def extractRuntimeReference (f : Finding) : ActionTemplateReference :=
  { kind :=
      match f.keyPath.get? 1 with
      | some (.str "services") => "deploy"
      | _ => "run"
    name :=
      match f.keyPath.get? 2 with
      | some (.str n) => n
      | _ => ""
    keyPath := f.keyPath.drop 3 }

/-- Modelled from the spec: `extractActionReference` (from
`config/references.ts`, not among the sources) converts an `actions.*` lookup
to an action reference `{kind, name, keyPath}` where `keyPath` holds the
remaining segments. -/
def extractActionReference (f : Finding) : ActionTemplateReference :=
  { kind :=
      match f.keyPath.get? 1 with
      | some (.str k) => k
      | _ => ""
    name :=
      match f.keyPath.get? 2 with
      | some (.str n) => n
      | _ => ""
    keyPath := f.keyPath.drop 3 }

/-- `TemplateResolutionNeeds` from `lazy-resolve.ts`. -/
structure TemplateResolutionNeeds where
  providers : List String
  modules : List String
  actions : List ActionTemplateReference
  hasReferences : Bool
deriving DecidableEq, Repr

/-- The loop body of `scanTemplateReferences`: `refName = keyPath[1]` must be
a truthy string (`!refName || !isString(refName)` skips the finding), then the
first segment selects the bucket; any other namespace contributes nothing. -/
def scanStep (acc : List String × List String × List ActionTemplateReference) (f : Finding) :
    List String × List String × List ActionTemplateReference :=
  let (providers, modules, actions) := acc
  match f.keyPath.get? 1 with
  | some (.str refName) =>
    if refName = "" then (providers, modules, actions)
    else
      match f.keyPath.get? 0 with
      | some (.str "providers") => (providers ++ [refName], modules, actions)
      | some (.str "modules") => (providers, modules ++ [refName], actions)
      | some (.str "runtime") => (providers, modules, actions ++ [extractRuntimeReference f])
      | some (.str "actions") => (providers, modules, actions ++ [extractActionReference f])
      | _ => (providers, modules, actions)
  | _ => (providers, modules, actions)

/-- `scanTemplateReferences(value, context)` from `lazy-resolve.ts`, embedded
over the findings produced by the template visitor for `value` against the
context. `hasReferences` is set iff any of the three collections is
non-empty. -/
def scanTemplateReferences (findings : List Finding) : TemplateResolutionNeeds :=
  let acc := findings.foldl scanStep ([], [], [])
  { providers := acc.1
    modules := acc.2.1
    actions := acc.2.2
    hasReferences := acc.1.length > 0 || acc.2.1.length > 0 || acc.2.2.length > 0 }

/-- A task handed to the external scheduler: `action.getExecuteTask(...)` or
`action.getResolveTask(...)`, identified by the action it belongs to. -/
inductive Task where
  | executeTask (kind name : String)
  | resolveTask (kind name : String)
deriving DecidableEq, Repr

/-- One entry of `results.getAll()` from the scheduler: the executor-facing
fields `result.executedAction` and `result.outputs.resolvedAction`. -/
structure GraphResultEntry where
  executedAction : Option String
  resolvedAction : Option String
deriving DecidableEq, Repr

/-- An observable call to an external collaborator made by
`resolveTemplateNeeds`. -/
inductive GardenEvent where
  | resolveProvidersCall
  | getConfigGraphCall
  | processTasksCall (tasks : List Task) (throwOnError : Bool)
deriving DecidableEq, Repr

/-- The external collaborators of `resolveTemplateNeeds`, as oracles:
provider resolution, the config graph (action types and module lookup), the
static output-key schema, and the task scheduler's results. -/
structure GardenEnv where
  resolvedProviders : List (String × String)
  actionTypeOf : String → String → String
  staticOutputKeys : String → String → List String
  modulesOf : List String → List String
  taskResults : List Task → List GraphResultEntry

/-- `ResolvedTemplateNeeds` from `lazy-resolve.ts`; `hasGraph` records whether
the optional `graph` field was populated (i.e. the dependency graph was
built). -/
structure ResolvedTemplateNeeds where
  hasGraph : Bool
  providers : List (String × String)
  modules : List String
  results : List GraphResultEntry
  executedActions : List String
deriving DecidableEq, Repr

/-- Modelled from the spec: `actionRefNeedsExecution` (from
`graph/actions.ts`, not among the sources). An action reference needs
execution unless its referenced `keyPath` names a statically-known output key
for the action's kind and type; then resolving configuration suffices. -/
def actionRefNeedsExecution (refKeyPath : List Seg) (refStaticOutputKeys : List String) : Bool :=
  match refKeyPath with
  | .str "outputs" :: .str key :: _ => ¬ refStaticOutputKeys.contains key
  | _ => true

/-- The static output keys the graph knows for a reference:
`getStaticOutputKeys(actionTypes, ref.kind, graph.getActionByRef(ref).type)`. -/
def refStaticKeys (env : GardenEnv) (ref : ActionTemplateReference) : List String :=
  env.staticOutputKeys ref.kind (env.actionTypeOf ref.kind ref.name)

/-- `resolveTemplateNeeds(garden, log, needs)` from `lazy-resolve.ts`,
returning the resolution result together with the trace of external calls.
Providers are resolved only when referenced; the graph is built only when a
module or action is referenced; action references are partitioned into
needs-execution and resolve-only; one task per action is submitted in a
single `processTasks` call with `throwOnError: true`, skipped entirely when
the task list is empty; executed/resolved action handles are collected from
the task results. -/
def resolveTemplateNeeds (env : GardenEnv) (needs : TemplateResolutionNeeds) :
    ResolvedTemplateNeeds × List GardenEvent :=
  let pr :=
    if needs.providers.length > 0 then (env.resolvedProviders, [GardenEvent.resolveProvidersCall])
    else ([], [])
  let needsGraph := needs.actions.length > 0 || needs.modules.length > 0
  if ¬ needsGraph then
    ({ hasGraph := false, providers := pr.1, modules := [], results := [], executedActions := [] },
      pr.2)
  else
    let ev := pr.2 ++ [GardenEvent.getConfigGraphCall]
    let modules := env.modulesOf needs.modules
    let actionsToExecute := needs.actions.filter fun ref =>
      actionRefNeedsExecution ref.keyPath (refStaticKeys env ref)
    let actionsToResolve := needs.actions.filter fun ref =>
      !(actionRefNeedsExecution ref.keyPath (refStaticKeys env ref))
    let executeTasks := actionsToExecute.map fun ref => Task.executeTask ref.kind ref.name
    let resolveTasks := actionsToResolve.map fun ref => Task.resolveTask ref.kind ref.name
    let allTasks := executeTasks ++ resolveTasks
    let sub :=
      if allTasks.length > 0 then
        (env.taskResults allTasks, ev ++ [GardenEvent.processTasksCall allTasks true])
      else ([], ev)
    let executedActions := sub.1.foldl
      (fun acc r =>
        match r.executedAction with
        | some a => acc ++ [a]
        | none =>
          match r.resolvedAction with
          | some a => acc ++ [a]
          | none => acc) []
    ({ hasGraph := true, providers := pr.1, modules := modules, results := sub.1,
       executedActions := executedActions }, sub.2)

/-- The task submissions contained in an event trace. -/
def submissionsOf (evs : List GardenEvent) : List GardenEvent :=
  evs.filter fun e =>
    match e with
    | .processTasksCall _ _ => true
    | _ => false

/-- The task set the spec says one resolution call submits: one execute-task
per needs-execution action and one resolve-task per resolve-only action.
Stated from the spec's words, for comparison with `resolveTemplateNeeds`. -/
def specPlannedTasks (env : GardenEnv) (needs : TemplateResolutionNeeds) : List Task :=
  ((needs.actions.filter fun ref =>
      actionRefNeedsExecution ref.keyPath (refStaticKeys env ref)).map fun ref =>
        Task.executeTask ref.kind ref.name) ++
    ((needs.actions.filter fun ref =>
      !(actionRefNeedsExecution ref.keyPath (refStaticKeys env ref))).map fun ref =>
        Task.resolveTask ref.kind ref.name)

/-- The shape invariant of the `steps` map of an `ExecuteStepsResult`: every
entry originates from some step index, carries that index + 1 as its `number`,
and is keyed by that step's (possibly defaulted) name. -/
def stepsInv (steps : List StepSpec) (m : List (String × StepResult)) : Prop :=
  ∀ p ∈ m, ∃ i s, steps.get? i = some s ∧ p.2.number = i + 1 ∧ p.1 = getStepName i s.name

/-! ## Helper lemmas on the association-list operations -/

theorem lookupKey_nil {α : Type} (k : String) : lookupKey ([] : List (String × α)) k = none := rfl

theorem lookupKey_cons {α : Type} (p : String × α) (t : List (String × α)) (k : String) :
    lookupKey (p :: t) k = if p.1 = k then some p.2 else lookupKey t k := by
  by_cases hp : p.1 = k <;> simp [lookupKey, List.find?, hp]

theorem lookupKey_mapSet_ne {α : Type} (t : List (String × α)) (k : String) (v : α)
    (k' : String) (h : k' ≠ k) :
    lookupKey (t.map fun q => if q.1 = k then (k, v) else q) k' = lookupKey t k' := by
  induction t with
  | nil => rfl
  | cons q t ih =>
    simp only [List.map_cons]
    rw [lookupKey_cons, lookupKey_cons]
    by_cases hq : q.1 = k
    · have h1 : ¬ (((k, v) : String × α).1 = k') := fun hkk => h hkk.symm
      have h2 : ¬ (q.1 = k') := fun hqk => h (by rw [← hqk, hq])
      rw [if_pos hq, if_neg h1, if_neg h2]
      exact ih
    · rw [if_neg hq]
      by_cases hq' : q.1 = k'
      · rw [if_pos hq', if_pos hq']
      · rw [if_neg hq', if_neg hq']
        exact ih

theorem lookupKey_mapSet_self {α : Type} (t : List (String × α)) (k : String) (v : α)
    (h : t.any (fun q => q.1 = k) = true) :
    lookupKey (t.map fun q => if q.1 = k then (k, v) else q) k = some v := by
  induction t with
  | nil => simp at h
  | cons q t ih =>
    by_cases hq : q.1 = k
    · simp only [List.map_cons, hq, if_true]
      rw [lookupKey_cons]
      simp
    · simp only [List.any_cons, Bool.or_eq_true, decide_eq_true_eq] at h
      rcases h with h | h
      · exact absurd h hq
      · simp only [List.map_cons, hq, if_false]
        rw [lookupKey_cons]
        simp only [hq, if_false]
        exact ih h

theorem lookupKey_append_single {α : Type} (m : List (String × α)) (k : String) (v : α)
    (k' : String) (h : m.any (fun q => q.1 = k) = false) :
    lookupKey (m ++ [(k, v)]) k' = if k' = k then some v else lookupKey m k' := by
  induction m with
  | nil =>
    rw [List.nil_append, lookupKey_cons]
    by_cases hk : k' = k
    · simp [hk]
    · have hk' : ¬ (k = k') := fun h' => hk h'.symm
      simp [hk, hk']
  | cons q t ih =>
    simp only [List.any_cons, Bool.or_eq_false_iff, decide_eq_false_iff_not] at h
    rw [List.cons_append, lookupKey_cons, lookupKey_cons]
    by_cases hq : q.1 = k'
    · have : ¬ (k' = k) := fun hk => h.1 (hq ▸ hk ▸ rfl)
      simp [hq, this]
    · simp only [hq, if_false]
      exact ih (by simp [h.2])

theorem lookupKey_setKey {α : Type} (m : List (String × α)) (k : String) (v : α) (k' : String) :
    lookupKey (setKey m k v) k' = if k' = k then some v else lookupKey m k' := by
  unfold setKey
  by_cases hany : m.any (fun q => q.1 = k) = true
  · simp only [hany, if_true]
    by_cases hk : k' = k
    · rw [hk, lookupKey_mapSet_self m k v hany]
      simp
    · rw [lookupKey_mapSet_ne m k v k' hk, if_neg hk]
  · simp only [hany, if_false]
    exact lookupKey_append_single m k v k' (Bool.eq_false_iff.mpr hany)

theorem lookupKey_setKey_self {α : Type} (m : List (String × α)) (k : String) (v : α) :
    lookupKey (setKey m k v) k = some v := by
  rw [lookupKey_setKey]
  simp

theorem lookupKey_setKey_ne {α : Type} (m : List (String × α)) (k : String) (v : α)
    (k' : String) (h : k' ≠ k) : lookupKey (setKey m k v) k' = lookupKey m k' := by
  rw [lookupKey_setKey]
  simp [h]

theorem lookupKey_foldl_setKey_not_mem {α β : Type} (g : β → String) (f : β → α)
    (l : List β) (m0 : List (String × α)) (name : String) (h : ∀ b ∈ l, g b ≠ name) :
    lookupKey (l.foldl (fun m b => setKey m (g b) (f b)) m0) name = lookupKey m0 name := by
  induction l generalizing m0 with
  | nil => rfl
  | cons a t ih =>
    simp only [List.foldl_cons]
    rw [ih _ (fun b hb => h b (List.mem_cons_of_mem a hb))]
    exact lookupKey_setKey_ne _ _ _ _ (fun hk => h a (List.mem_cons_self a t) hk.symm)

theorem lookupKey_foldl_setKey_mem {α β : Type} (g : β → String) (f : β → α)
    (l : List β) (m0 : List (String × α)) (name : String) (v : α)
    (hex : ∃ b ∈ l, g b = name) (hval : ∀ b ∈ l, g b = name → f b = v) :
    lookupKey (l.foldl (fun m b => setKey m (g b) (f b)) m0) name = some v := by
  induction l generalizing m0 with
  | nil => simp at hex
  | cons a t ih =>
    simp only [List.foldl_cons]
    by_cases ht : ∃ b ∈ t, g b = name
    · exact ih _ ht (fun b hb hgb => hval b (List.mem_cons_of_mem a hb) hgb)
    · have hga : g a = name := by
        obtain ⟨b, hb, hgb⟩ := hex
        rcases List.mem_cons.mp hb with hba | hbt
        · exact hba ▸ hgb
        · exact absurd ⟨b, hbt, hgb⟩ ht
      push_neg at ht
      rw [lookupKey_foldl_setKey_not_mem g f t _ name ht]
      rw [hga, hval a (List.mem_cons_self a t) hga]
      exact lookupKey_setKey_self _ _ _

theorem mem_setKey {α : Type} (m : List (String × α)) (k : String) (v : α)
    (p : String × α) (h : p ∈ setKey m k v) : p ∈ m ∨ p = (k, v) := by
  unfold setKey at h
  split at h
  · rcases List.mem_map.mp h with ⟨q, hq, hqe⟩
    by_cases hqk : q.1 = k
    · right
      simp [hqk] at hqe
      exact hqe.symm
    · left
      rw [← hqe]
      simpa [hqk] using hq
  · rcases List.mem_append.mp h with hm | hs
    · exact Or.inl hm
    · exact Or.inr (by simpa using hs)

theorem length_setKey_le {α : Type} (m : List (String × α)) (k : String) (v : α) :
    (setKey m k v).length ≤ m.length + 1 := by
  unfold setKey
  split
  · simp
  · simp

theorem assoc_nodup_unique {α : Type} (l : List (String × α)) (hnd : (l.map Prod.fst).Nodup)
    (k : String) (v : α) (hv : (k, v) ∈ l) (b : String × α) (hb : b ∈ l) (hkb : b.1 = k) :
    b = (k, v) := by
  induction l with
  | nil => simp at hv
  | cons a t ih =>
    simp only [List.map_cons, List.nodup_cons] at hnd
    rcases List.mem_cons.mp hv with hv1 | hv2 <;> rcases List.mem_cons.mp hb with hb1 | hb2
    · rw [hb1, hv1]
    · exfalso
      apply hnd.1
      have : b.1 = a.1 := by rw [hkb, ← hv1]
      exact this ▸ List.mem_map.mpr ⟨b, hb2, rfl⟩
    · exfalso
      apply hnd.1
      have : (k, v).1 = a.1 := by rw [← hb1, hkb]
      exact this ▸ List.mem_map.mpr ⟨(k, v), hv2, rfl⟩
    · exact ih hnd.2 hv2 hb2

/-! ## Helper lemmas on the execution loop -/

theorem stepsLoopAux_length_le (steps : List StepSpec) (run : Nat → StepOutcome)
    (logOf : Nat → String) (l : List (Nat × StepSpec)) (acc : ExecuteStepsResult)
    (ran : List Nat) (r : ExecuteStepsResult) (tr : List Nat)
    (h : stepsLoopAux steps run logOf l acc ran = (Except.ok r, tr)) :
    r.steps.length ≤ acc.steps.length + l.length := by
  induction l generalizing acc ran with
  | nil =>
    simp only [stepsLoopAux, Prod.mk.injEq, Except.ok.injEq] at h
    rw [← h.1]
    simp
  | cons p t ih =>
    obtain ⟨i, step⟩ := p
    simp only [stepsLoopAux] at h
    split at h
    · have hrec := ih _ _ h
      simp only [List.length_cons]
      omega
    · split at h
      · have hrec := ih _ _ h
        dsimp only at hrec
        have hs := length_setKey_le acc.steps (getStepName i step.name)
          (⟨i + 1, [], ""⟩ : StepResult)
        simp only [List.length_cons]
        omega
      · split at h
        · simp at h
        · rcases hrun : run i with e | ⟨res, errs⟩
          · simp only [hrun, Prod.mk.injEq, Except.ok.injEq] at h
            rw [← h.1]
            simp
          · simp only [hrun] at h
            have hs := length_setKey_le acc.steps (getStepName i step.name)
              (⟨i + 1, res.getD [], logOf i⟩ : StepResult)
            split at h
            · split at h
              · have hrec := ih _ _ h
                dsimp only at hrec
                simp only [List.length_cons]
                omega
              · have hrec := ih _ _ h
                dsimp only at hrec
                simp only [List.length_cons]
                omega
            · have hrec := ih _ _ h
              dsimp only at hrec
              simp only [List.length_cons]
              omega

theorem stepsLoopAux_inv (steps : List StepSpec) (run : Nat → StepOutcome)
    (logOf : Nat → String) (l : List (Nat × StepSpec)) (acc : ExecuteStepsResult)
    (ran : List Nat) (r : ExecuteStepsResult) (tr : List Nat)
    (hl : ∀ q ∈ l, steps.get? q.1 = some q.2)
    (hacc : stepsInv steps acc.steps)
    (h : stepsLoopAux steps run logOf l acc ran = (Except.ok r, tr)) :
    stepsInv steps r.steps := by
  induction l generalizing acc ran with
  | nil =>
    simp only [stepsLoopAux, Prod.mk.injEq, Except.ok.injEq] at h
    rw [← h.1]
    exact hacc
  | cons p t ih =>
    obtain ⟨i, step⟩ := p
    have hi : steps.get? i = some step := hl (i, step) (List.mem_cons_self _ _)
    have hlt : ∀ q ∈ t, steps.get? q.1 = some q.2 := fun q hq => hl q (List.mem_cons_of_mem _ hq)
    have hset : ∀ (res : Outputs) (lg : String),
        stepsInv steps (setKey acc.steps (getStepName i step.name) ⟨i + 1, res, lg⟩) := by
      intro res lg p hp
      rcases mem_setKey _ _ _ _ hp with hpm | hpe
      · exact hacc p hpm
      · exact ⟨i, step, hi, by rw [hpe], by rw [hpe]⟩
    simp only [stepsLoopAux] at h
    split at h
    · exact ih _ _ hlt hacc h
    · split at h
      · exact ih _ _ hlt (hset [] "") h
      · split at h
        · simp at h
        · rcases hrun : run i with e | ⟨res, errs⟩
          · simp only [hrun, Prod.mk.injEq, Except.ok.injEq] at h
            rw [← h.1]
            exact hacc
          · simp only [hrun] at h
            split at h
            · split at h
              · exact ih _ _ hlt (hset _ _) h
              · exact ih _ _ hlt (hset _ _) h
            · exact ih _ _ hlt (hset _ _) h

/-! ## Claim theorems -/

/-- C1: the drop predicate is claimed to satisfy the section 4.4 table, with
"qualifying prior failure" = an earlier non-`onError` step with a recorded
error. The code computes the last qualifying failure index from the position
in the *filtered* array, which diverges from the table. At
`steps = [onError, onError, default, onError]` with the error map `{2: [err]}`
(the map the executor itself produces: steps 0 and 1 are dropped, step 2 runs
and fails), the code drops the trailing `onError` handler (`true`) while the
table — and the six section-8 evaluations, which both sides satisfy — requires
it to run (`false`). -/
theorem shouldBeDropped_filtered_index_bug :
    (shouldBeDropped 3
        [{ when := some .onError }, { when := some .onError }, {}, { when := some .onError }]
        [(2, [⟨"step 2 failed"⟩])] = true ∧
      shouldBeDroppedSpec 3
        [{ when := some .onError }, { when := some .onError }, {}, { when := some .onError }]
        [(2, [⟨"step 2 failed"⟩])] = false) ∧
    (shouldBeDropped 0
        [{ when := some .onError }, { when := some .onError }, {}, { when := some .onError }]
        [] = true ∧
      shouldBeDropped 1
        [{ when := some .onError }, { when := some .onError }, {}, { when := some .onError }]
        [] = true ∧
      shouldBeDropped 2
        [{ when := some .onError }, { when := some .onError }, {}, { when := some .onError }]
        [] = false) ∧
    (shouldBeDropped 1 [{}, { when := some .always }] [] = false ∧
      shouldBeDropped 1 [{}, { when := some .never }] [] = true ∧
      shouldBeDropped 1 [{}, { when := some .onError }] [] = true ∧
      shouldBeDropped 1 [{}, { when := some .onError }] [(0, [⟨"e"⟩])] = false ∧
      shouldBeDropped 1 [{}, {}] [(0, [⟨"e"⟩])] = true ∧
      shouldBeDropped 1 [{}, {}] [] = false) := by
  decide

/-- C2: when a step's operation returns a `RunOutcome` carrying structured
errors, the loop still inserts a `StepResult` for the step, records the errors
at the step's index exactly when `continueOnError` is false, and proceeds to
the next iteration (whose first act is the drop-predicate evaluation) instead
of terminating. -/
theorem stepsLoopAux_structured_error (steps : List StepSpec) (run : Nat → StepOutcome)
    (logOf : Nat → String) (i : Nat) (step : StepSpec) (rest : List (Nat × StepSpec))
    (acc : ExecuteStepsResult) (ran : List Nat) (res : Option Outputs) (errs : List Err)
    (hdrop : shouldBeDropped i steps acc.errors = false)
    (hskip : step.skip = false)
    (hact : hasStepAction step = true)
    (hrun : run i = .result res errs)
    (herr : 0 < errs.length) :
    stepsLoopAux steps run logOf ((i, step) :: rest) acc ran =
      stepsLoopAux steps run logOf rest
        ⟨setKey acc.steps (getStepName i step.name) ⟨i + 1, res.getD [], logOf i⟩,
          if step.continueOnError then acc.errors else setErr acc.errors i errs⟩
        (ran ++ [i]) := by
  cases hcoe : step.continueOnError <;>
    simp [stepsLoopAux, hdrop, hskip, hact, hrun, herr, hcoe]

/-- C2 witness: a single-step sequence whose exec operation exits non-zero. -/
theorem stepsLoopAux_structured_error_witness :
    stepsLoopAux [{ exec := some ⟨[Value.str "false"], []⟩ }]
        (fun _ => StepOutcome.result (some []) [⟨"exit 1"⟩]) (fun _ => "")
        [(0, { exec := some ⟨[Value.str "false"], []⟩ })] ⟨[], []⟩ [] =
      stepsLoopAux [{ exec := some ⟨[Value.str "false"], []⟩ }]
        (fun _ => StepOutcome.result (some []) [⟨"exit 1"⟩]) (fun _ => "") []
        ⟨setKey [] (getStepName 0 none) ⟨1, [], ""⟩,
          if ({ exec := some ⟨[Value.str "false"], []⟩ } : StepSpec).continueOnError then []
          else setErr [] 0 [⟨"exit 1"⟩]⟩
        ([] ++ [0]) :=
  stepsLoopAux_structured_error [{ exec := some ⟨[Value.str "false"], []⟩ }]
    (fun _ => StepOutcome.result (some []) [⟨"exit 1"⟩]) (fun _ => "") 0
    { exec := some ⟨[Value.str "false"], []⟩ } [] ⟨[], []⟩ [] (some []) [⟨"exit 1"⟩]
    (by decide) (by decide) (by decide) rfl (by decide)

/-- C3: an exception raised while resolving a step's templates or dispatching
its operation records that exception as the sole error at the step's index,
records no `StepResult`, and terminates the loop at once — the returned value
does not depend on the remaining steps, so nothing after the failing step is
evaluated or run, `when: always` steps included. -/
theorem stepsLoopAux_exception_aborts (steps : List StepSpec) (run : Nat → StepOutcome)
    (logOf : Nat → String) (i : Nat) (step : StepSpec) (rest : List (Nat × StepSpec))
    (acc : ExecuteStepsResult) (ran : List Nat) (e : Err)
    (hdrop : shouldBeDropped i steps acc.errors = false)
    (hskip : step.skip = false)
    (hact : hasStepAction step = true)
    (hrun : run i = .throws e) :
    stepsLoopAux steps run logOf ((i, step) :: rest) acc ran =
      (Except.ok ⟨acc.steps, setErr acc.errors i [e]⟩, ran ++ [i]) := by
  simp [stepsLoopAux, hdrop, hskip, hact, hrun]

/-- C3 witness: a two-step sequence where step 0 throws; the trailing
`when: always` step never executes. -/
theorem stepsLoopAux_exception_aborts_witness :
    stepsLoopAux [{ script := some (Value.str "boom") }, { when := some .always }]
        (fun _ => StepOutcome.throws ⟨"template failure"⟩) (fun _ => "")
        [(0, { script := some (Value.str "boom") }), (1, { when := some .always })] ⟨[], []⟩ [] =
      (Except.ok ⟨[], setErr [] 0 [⟨"template failure"⟩]⟩, [] ++ [0]) :=
  stepsLoopAux_exception_aborts
    [{ script := some (Value.str "boom") }, { when := some .always }]
    (fun _ => StepOutcome.throws ⟨"template failure"⟩) (fun _ => "") 0
    { script := some (Value.str "boom") } [(1, { when := some .always })] ⟨[], []⟩ []
    ⟨"template failure"⟩ (by decide) (by decide) (by decide) rfl

/-- C5: a step dropped by the predicate leaves the result map, the error map
and the trace of dispatched operations untouched; a non-dropped step with
`skip: true` records `{number: index+1, outputs: {}, log: ""}` under its name
without dispatching its operation. -/
theorem stepsLoopAux_dropped_and_skipped (steps : List StepSpec) (run : Nat → StepOutcome)
    (logOf : Nat → String) (i : Nat) (step : StepSpec) (rest : List (Nat × StepSpec))
    (acc : ExecuteStepsResult) (ran : List Nat) :
    (shouldBeDropped i steps acc.errors = true →
      stepsLoopAux steps run logOf ((i, step) :: rest) acc ran =
        stepsLoopAux steps run logOf rest acc ran) ∧
    (shouldBeDropped i steps acc.errors = false → step.skip = true →
      stepsLoopAux steps run logOf ((i, step) :: rest) acc ran =
        stepsLoopAux steps run logOf rest
          ⟨setKey acc.steps (getStepName i step.name) ⟨i + 1, [], ""⟩, acc.errors⟩ ran) := by
  constructor
  · intro hdrop
    simp [stepsLoopAux, hdrop]
  · intro hdrop hskip
    simp [stepsLoopAux, hdrop, hskip]

/-- C5 witness: a defaulted step after a recorded failure is dropped without a
result entry, and a `skip: true` step records the empty result. -/
theorem stepsLoopAux_dropped_and_skipped_witness :
    (stepsLoopAux [{ script := some (Value.str "a") }, { script := some (Value.str "b") }]
        (fun _ => StepOutcome.result (some []) []) (fun _ => "")
        [(1, { script := some (Value.str "b") })] ⟨[], [(0, [⟨"e"⟩])]⟩ [] =
      stepsLoopAux [{ script := some (Value.str "a") }, { script := some (Value.str "b") }]
        (fun _ => StepOutcome.result (some []) []) (fun _ => "")
        [] ⟨[], [(0, [⟨"e"⟩])]⟩ []) ∧
    (stepsLoopAux [{ name := some "skipped", skip := true, script := some (Value.str "x") }]
        (fun _ => StepOutcome.result (some []) []) (fun _ => "")
        [(0, { name := some "skipped", skip := true, script := some (Value.str "x") })]
        ⟨[], []⟩ [] =
      stepsLoopAux [{ name := some "skipped", skip := true, script := some (Value.str "x") }]
        (fun _ => StepOutcome.result (some []) []) (fun _ => "") []
        ⟨setKey [] (getStepName 0 (some "skipped")) ⟨1, [], ""⟩, []⟩ []) :=
  ⟨(stepsLoopAux_dropped_and_skipped
      [{ script := some (Value.str "a") }, { script := some (Value.str "b") }]
      (fun _ => StepOutcome.result (some []) []) (fun _ => "") 1
      { script := some (Value.str "b") } [] ⟨[], [(0, [⟨"e"⟩])]⟩ []).1 (by decide),
    (stepsLoopAux_dropped_and_skipped
      [{ name := some "skipped", skip := true, script := some (Value.str "x") }]
      (fun _ => StepOutcome.result (some []) []) (fun _ => "") 0
      { name := some "skipped", skip := true, script := some (Value.str "x") } [] ⟨[], []⟩ []).2
      (by decide) (by decide)⟩

/-- C8: for every executed sequence, the result map has at most one entry per
step, and every recorded `StepResult` carries `number = index + 1` of the step
that produced it, under that step's (possibly defaulted) name. -/
theorem executeSteps_result_shape (steps : List StepSpec) (run : Nat → StepOutcome)
    (logOf : Nat → String) (r : ExecuteStepsResult) (tr : List Nat)
    (h : executeSteps steps run logOf = (Except.ok r, tr)) :
    r.steps.length ≤ steps.length ∧
      ∀ p ∈ r.steps, ∃ i s, steps.get? i = some s ∧ p.2.number = i + 1 ∧
        p.1 = getStepName i s.name := by
  unfold executeSteps at h
  constructor
  · have hle := stepsLoopAux_length_le steps run logOf steps.enum ⟨[], []⟩ [] r tr h
    simpa [List.enum_length] using hle
  · exact stepsLoopAux_inv steps run logOf steps.enum ⟨[], []⟩ [] r tr
      (fun q hq => by simpa [List.get?_eq_getElem?] using List.mem_enum_iff_getElem?.mp hq)
      (fun p hp => absurd hp (List.not_mem_nil p)) h

/-- C8 witness: the section-8 two-step scenario, with both steps succeeding. -/
theorem executeSteps_result_shape_witness :
    (executeSteps
        [{ name := some "step-one", script := some (Value.str "echo hello") },
         { name := some "step-two", script := some (Value.str "echo world") }]
        (fun _ => StepOutcome.result (some []) []) (fun _ => "log")).1 =
      Except.ok ⟨[("step-one", ⟨1, [], "log"⟩), ("step-two", ⟨2, [], "log"⟩)], []⟩ ∧
    (⟨[("step-one", ⟨1, [], "log"⟩), ("step-two", ⟨2, [], "log"⟩)], []⟩ :
        ExecuteStepsResult).steps.length ≤
      ([{ name := some "step-one", script := some (Value.str "echo hello") },
        { name := some "step-two", script := some (Value.str "echo world") }] :
          List StepSpec).length ∧
    ∀ p ∈ (⟨[("step-one", ⟨1, [], "log"⟩), ("step-two", ⟨2, [], "log"⟩)], []⟩ :
        ExecuteStepsResult).steps,
      ∃ i s,
        ([{ name := some "step-one", script := some (Value.str "echo hello") },
           { name := some "step-two", script := some (Value.str "echo world") }] :
            List StepSpec).get? i = some s ∧
          p.2.number = i + 1 ∧ p.1 = getStepName i s.name :=
  ⟨rfl,
    (executeSteps_result_shape
      [{ name := some "step-one", script := some (Value.str "echo hello") },
       { name := some "step-two", script := some (Value.str "echo world") }]
      (fun _ => StepOutcome.result (some []) []) (fun _ => "log")
      ⟨[("step-one", ⟨1, [], "log"⟩), ("step-two", ⟨2, [], "log"⟩)], []⟩ [0, 1]
      rfl).1,
    (executeSteps_result_shape
      [{ name := some "step-one", script := some (Value.str "echo hello") },
       { name := some "step-two", script := some (Value.str "echo world") }]
      (fun _ => StepOutcome.result (some []) []) (fun _ => "log")
      ⟨[("step-one", ⟨1, [], "log"⟩), ("step-two", ⟨2, [], "log"⟩)], []⟩ [0, 1]
      rfl).2⟩

/-- C4: the `steps` map of the per-step context binds every previously
completed step name to its recorded result (so dereferencing it succeeds),
binds the step's own name to the self-reference sentinel, and binds every
other (not-yet-completed) step name to the forward-reference sentinel.
The map construction is a total function — it never raises; only `derefStep`
inspects the sentinels. -/
theorem buildStepsContext_spec (allStepNames : List String) (stepName : String)
    (resolvedSteps : List (String × StepResult))
    (hnd : (resolvedSteps.map Prod.fst).Nodup) :
    (∀ name r, (name, r) ∈ resolvedSteps →
      lookupKey (buildStepsContext allStepNames stepName resolvedSteps) name =
          some (.stepCtx r) ∧
        derefStep (buildStepsContext allStepNames stepName resolvedSteps) name =
          Except.ok r) ∧
    (stepName ∉ resolvedSteps.map Prod.fst →
      lookupKey (buildStepsContext allStepNames stepName resolvedSteps) stepName =
        some (.errorCtx (selfRefMessage stepName))) ∧
    (∀ name, name ∈ allStepNames → name ≠ stepName → name ∉ resolvedSteps.map Prod.fst →
      lookupKey (buildStepsContext allStepNames stepName resolvedSteps) name =
        some (.errorCtx (forwardRefMessage name stepName))) := by
  refine ⟨fun name r hmem => ?_, fun hself => ?_, fun name hall hne hnotres => ?_⟩
  · have hlook :
        lookupKey (buildStepsContext allStepNames stepName resolvedSteps) name =
          some (.stepCtx r) := by
      unfold buildStepsContext
      exact lookupKey_foldl_setKey_mem Prod.fst (fun p => StepContextEntry.stepCtx p.2)
        resolvedSteps _ name (.stepCtx r) ⟨(name, r), hmem, rfl⟩
        (fun b hb hgb => by rw [assoc_nodup_unique resolvedSteps hnd name r hmem b hb hgb])
    refine ⟨hlook, ?_⟩
    unfold derefStep
    rw [hlook]
  · unfold buildStepsContext
    rw [lookupKey_foldl_setKey_not_mem Prod.fst (fun p => StepContextEntry.stepCtx p.2)
      resolvedSteps _ stepName
      (fun b hb hgb => hself (hgb ▸ List.mem_map.mpr ⟨b, hb, rfl⟩))]
    exact lookupKey_setKey_self _ _ _
  · unfold buildStepsContext
    rw [lookupKey_foldl_setKey_not_mem Prod.fst (fun p => StepContextEntry.stepCtx p.2)
      resolvedSteps _ name
      (fun b hb hgb => hnotres (hgb ▸ List.mem_map.mpr ⟨b, hb, rfl⟩))]
    rw [lookupKey_setKey_ne _ _ _ _ hne]
    exact lookupKey_foldl_setKey_mem (fun s => s)
      (fun n => StepContextEntry.errorCtx (forwardRefMessage n stepName))
      allStepNames [] name (.errorCtx (forwardRefMessage name stepName))
      ⟨name, hall, rfl⟩ (fun b hb hgb => by rw [show b = name from hgb])

/-- C4 witness: three steps `a`, `b`, `c`, currently running `b` with `a`
completed: `a` dereferences to its result, `b` is the self sentinel, `c` the
forward sentinel. -/
theorem buildStepsContext_spec_witness :
    (lookupKey (buildStepsContext ["a", "b", "c"] "b" [("a", ⟨1, [], "log-a"⟩)]) "a" =
        some (.stepCtx ⟨1, [], "log-a"⟩) ∧
      derefStep (buildStepsContext ["a", "b", "c"] "b" [("a", ⟨1, [], "log-a"⟩)]) "a" =
        Except.ok ⟨1, [], "log-a"⟩) ∧
    lookupKey (buildStepsContext ["a", "b", "c"] "b" [("a", ⟨1, [], "log-a"⟩)]) "b" =
      some (.errorCtx (selfRefMessage "b")) ∧
    lookupKey (buildStepsContext ["a", "b", "c"] "b" [("a", ⟨1, [], "log-a"⟩)]) "c" =
      some (.errorCtx (forwardRefMessage "c" "b")) :=
  ⟨(buildStepsContext_spec ["a", "b", "c"] "b" [("a", ⟨1, [], "log-a"⟩)] (by decide)).1
      "a" ⟨1, [], "log-a"⟩ (by simp),
    (buildStepsContext_spec ["a", "b", "c"] "b" [("a", ⟨1, [], "log-a"⟩)] (by decide)).2.1
      (by decide),
    (buildStepsContext_spec ["a", "b", "c"] "b" [("a", ⟨1, [], "log-a"⟩)] (by decide)).2.2
      "c" (by decide) (by decide) (by decide)⟩

/-- C6: a scan result with no references resolves to the all-empty result with
an empty call trace — no provider resolution, no graph build, no task
submission — and since the function is pure, a second call (against any
environment) submits nothing either. -/
theorem resolveTemplateNeeds_empty (env env2 : GardenEnv) (needs : TemplateResolutionNeeds)
    (hp : needs.providers = []) (hm : needs.modules = []) (ha : needs.actions = [])
    (hr : needs.hasReferences = false) :
    resolveTemplateNeeds env needs =
        ({ hasGraph := false, providers := [], modules := [], results := [],
           executedActions := [] }, []) ∧
      submissionsOf (resolveTemplateNeeds env needs).2 = [] ∧
      submissionsOf (resolveTemplateNeeds env2 needs).2 = [] := by
  obtain ⟨p, m, a, hR⟩ := needs
  simp only at hp hm ha hr
  subst hp
  subst hm
  subst ha
  subst hr
  refine ⟨?_, ?_, ?_⟩ <;> simp [resolveTemplateNeeds, submissionsOf]

/-- C6 witness: the empty scan result against a concrete environment. -/
theorem resolveTemplateNeeds_empty_witness :
    resolveTemplateNeeds
        ⟨[("k8s", "provider-k8s")], fun _ _ => "container", fun _ _ => ["deployedImageId"],
          fun names => names, fun _ => []⟩
        ⟨[], [], [], false⟩ =
        ({ hasGraph := false, providers := [], modules := [], results := [],
           executedActions := [] }, []) ∧
      submissionsOf (resolveTemplateNeeds
        ⟨[("k8s", "provider-k8s")], fun _ _ => "container", fun _ _ => ["deployedImageId"],
          fun names => names, fun _ => []⟩ ⟨[], [], [], false⟩).2 = [] ∧
      submissionsOf (resolveTemplateNeeds
        ⟨[], fun _ _ => "", fun _ _ => [], fun _ => [], fun _ => []⟩ ⟨[], [], [], false⟩).2 = [] :=
  resolveTemplateNeeds_empty
    ⟨[("k8s", "provider-k8s")], fun _ _ => "container", fun _ _ => ["deployedImageId"],
      fun names => names, fun _ => []⟩
    ⟨[], fun _ _ => "", fun _ _ => [], fun _ => [], fun _ => []⟩
    ⟨[], [], [], false⟩ rfl rfl rfl rfl

/-- C7: the resolver partitions referenced actions by whether the referenced
key path names a statically-known output key, builds one execute-task per
needs-execution action and one resolve-task per resolve-only action, and its
trace contains exactly one `processTasks` submission carrying all of them with
`throwOnError := true` — or no submission at all when the combined task list
is empty. -/
theorem resolveTemplateNeeds_submission (env : GardenEnv) (needs : TemplateResolutionNeeds) :
    submissionsOf (resolveTemplateNeeds env needs).2 =
      if (specPlannedTasks env needs).isEmpty then []
      else [GardenEvent.processTasksCall (specPlannedTasks env needs) true] := by
  obtain ⟨providers, modules, actions, hasRefs⟩ := needs
  cases actions with
  | nil =>
    cases modules with
    | nil =>
      by_cases hp : providers.length > 0 <;>
        simp [resolveTemplateNeeds, specPlannedTasks, submissionsOf, hp]
    | cons m ms =>
      by_cases hp : providers.length > 0 <;>
        simp [resolveTemplateNeeds, specPlannedTasks, submissionsOf, hp]
  | cons a as =>
    have hne : specPlannedTasks env ⟨providers, modules, a :: as, hasRefs⟩ ≠ [] := by
      unfold specPlannedTasks
      intro hemp
      rcases List.append_eq_nil.mp hemp with ⟨h1, h2⟩
      by_cases hpa : actionRefNeedsExecution a.keyPath (refStaticKeys env a)
      · have ha : a ∈ (a :: as).filter fun ref =>
            actionRefNeedsExecution ref.keyPath (refStaticKeys env ref) :=
          List.mem_filter.mpr ⟨List.mem_cons_self a as, hpa⟩
        rw [List.map_eq_nil_iff] at h1
        rw [h1] at ha
        exact List.not_mem_nil a ha
      · have ha : a ∈ (a :: as).filter fun ref =>
            !(actionRefNeedsExecution ref.keyPath (refStaticKeys env ref)) :=
          List.mem_filter.mpr ⟨List.mem_cons_self a as, by simp [hpa]⟩
        rw [List.map_eq_nil_iff] at h2
        rw [h2] at ha
        exact List.not_mem_nil a ha
    have hlen : 0 < (specPlannedTasks env ⟨providers, modules, a :: as, hasRefs⟩).length :=
      List.length_pos.mpr hne
    rw [if_neg (by simpa [List.isEmpty_iff] using hne)]
    unfold resolveTemplateNeeds
    dsimp only
    rw [if_neg (by simp)]
    unfold specPlannedTasks at hlen ⊢
    dsimp only at hlen ⊢
    rw [if_pos hlen]
    dsimp only
    by_cases hp : providers.length > 0 <;> simp [hp, submissionsOf]

/-- Helper for C9: a finding whose first path segment is not one of the four
tracked namespaces contributes nothing to the scan accumulator. -/
theorem scanStep_cheap (acc : List String × List String × List ActionTemplateReference)
    (f : Finding)
    (h : ∀ s, f.keyPath.get? 0 = some (.str s) →
      s ∉ (["providers", "modules", "runtime", "actions"] : List String)) :
    scanStep acc f = acc := by
  obtain ⟨providers, modules, actions⟩ := acc
  unfold scanStep
  cases h1 : f.keyPath.get? 1 with
  | none => rfl
  | some seg =>
    cases seg with
    | num n => rfl
    | str refName =>
      by_cases hr : refName = ""
      · simp [hr]
      · dsimp only
        rw [if_neg hr]
        cases h0 : f.keyPath.get? 0 with
        | none => rfl
        | some seg0 =>
          cases seg0 with
          | num n => rfl
          | str s =>
            have hs := h s h0
            simp only [List.mem_cons, List.not_mem_nil, or_false, not_or] at hs
            obtain ⟨hs1, hs2, hs3, hs4⟩ := hs
            split
            all_goals first
              | rfl
              | simp_all

/-- C9: the scanner sets `hasReferences` iff one of the three reference
collections is non-empty, and findings whose first path segment is any
namespace other than `providers`, `modules`, `runtime`, `actions` (or a value
with no findings at all) contribute nothing, yielding the all-empty result. -/
theorem scanTemplateReferences_spec (findings : List Finding) :
    ((scanTemplateReferences findings).hasReferences = true ↔
      ((scanTemplateReferences findings).providers ≠ [] ∨
        (scanTemplateReferences findings).modules ≠ [] ∨
        (scanTemplateReferences findings).actions ≠ [])) ∧
    ((∀ f ∈ findings, ∀ s, f.keyPath.get? 0 = some (.str s) →
        s ∉ (["providers", "modules", "runtime", "actions"] : List String)) →
      scanTemplateReferences findings =
        { providers := [], modules := [], actions := [], hasReferences := false }) := by
  constructor
  · unfold scanTemplateReferences
    dsimp only
    simp [List.length_pos, or_assoc]
  · intro hcheap
    have hfold : findings.foldl scanStep ([], [], []) = ([], [], []) := by
      have hgen : ∀ (l : List Finding),
          (∀ f ∈ l, ∀ s, f.keyPath.get? 0 = some (.str s) →
            s ∉ (["providers", "modules", "runtime", "actions"] : List String)) →
          l.foldl scanStep ([], [], []) = ([], [], []) := by
        intro l hl
        induction l with
        | nil => rfl
        | cons f t ih =>
          rw [List.foldl_cons, scanStep_cheap _ f (hl f (List.mem_cons_self f t))]
          exact ih (fun g hg => hl g (List.mem_cons_of_mem f hg))
      exact hgen findings hcheap
    unfold scanTemplateReferences
    rw [hfold]
    simp

/-- C9 witness: instantiated at the section-8 examples — a `${args.$all}`-only
finding list yields `hasReferences = false`, as does the empty list. -/
theorem scanTemplateReferences_spec_witness :
    ((scanTemplateReferences [⟨[.str "args", .str "$all"]⟩]).hasReferences = true ↔
      ((scanTemplateReferences [⟨[.str "args", .str "$all"]⟩]).providers ≠ [] ∨
        (scanTemplateReferences [⟨[.str "args", .str "$all"]⟩]).modules ≠ [] ∨
        (scanTemplateReferences [⟨[.str "args", .str "$all"]⟩]).actions ≠ [])) ∧
    scanTemplateReferences [⟨[.str "args", .str "$all"]⟩] =
      { providers := [], modules := [], actions := [], hasReferences := false } :=
  ⟨(scanTemplateReferences_spec [⟨[.str "args", .str "$all"]⟩]).1,
    (scanTemplateReferences_spec [⟨[.str "args", .str "$all"]⟩]).2
      (by
        intro f hf s hs
        have hfe : f = ⟨[Seg.str "args", Seg.str "$all"]⟩ := List.mem_singleton.mp hf
        subst hfe
        simp only [List.get?] at hs
        injection hs with hs1
        injection hs1 with hs2
        subst hs2
        decide)⟩

/-- C10: template-resolving a step's operation fields maps the evaluator over
`command` and `gardenCommand` whenever they are set and silently removes every
element that evaluates to a falsy value (so every element surviving in either
resolved argument array is truthy), overwrites `exec` and a truthy `script`
with their evaluated forms, and leaves all other step fields unchanged — the
in-place mutation of the JS step object is modelled as the returned,
overwritten step. -/
theorem resolveStepTemplates_spec (ev : Value → Value) (step : StepSpec) :
    (resolveStepTemplates ev step).command =
      step.command.map (fun c => (c.map ev).filter truthy) ∧
    (resolveStepTemplates ev step).gardenCommand =
      step.gardenCommand.map (fun c => (c.map ev).filter truthy) ∧
    (∀ l, ((resolveStepTemplates ev step).command = some l ∨
        (resolveStepTemplates ev step).gardenCommand = some l) →
      ∀ v ∈ l, truthy v = true) ∧
    (resolveStepTemplates ev step).exec =
      step.exec.map (fun e => ⟨e.command.map ev, e.env.map fun p => (p.1, ev p.2)⟩) ∧
    (resolveStepTemplates ev step).script =
      (match step.script with
       | some s => if truthy s then some (ev s) else some s
       | none => none) ∧
    (resolveStepTemplates ev step).name = step.name ∧
    (resolveStepTemplates ev step).when = step.when ∧
    (resolveStepTemplates ev step).skip = step.skip ∧
    (resolveStepTemplates ev step).continueOnError = step.continueOnError := by
  obtain ⟨n, d, w, sk, coe, cmd, gc, ex, scr⟩ := step
  have hchar : resolveStepTemplates ev ⟨n, d, w, sk, coe, cmd, gc, ex, scr⟩ =
      ⟨n, d, w, sk, coe, cmd.map (fun c => (c.map ev).filter truthy),
        gc.map (fun c => (c.map ev).filter truthy),
        ex.map (fun e => ⟨e.command.map ev, e.env.map fun p => (p.1, ev p.2)⟩),
        (match scr with
         | some s => if truthy s then some (ev s) else some s
         | none => none)⟩ := by
    cases cmd <;> cases gc <;> cases ex <;> cases scr <;>
      simp only [resolveStepTemplates] <;>
        first
          | rfl
          | (rename_i s
             by_cases hts : truthy s <;> simp [hts])
  rw [hchar]
  refine ⟨rfl, rfl, ?_, rfl, rfl, rfl, rfl, rfl, rfl⟩
  intro l hl v hv
  rcases hl with hl | hl
  · cases cmd with
    | none => simp at hl
    | some c =>
      have hl2 : (c.map ev).filter truthy = l := by simpa using hl
      exact List.of_mem_filter (hl2 ▸ hv)
  · cases gc with
    | none => simp at hl
    | some c =>
      have hl2 : (c.map ev).filter truthy = l := by simpa using hl
      exact List.of_mem_filter (hl2 ▸ hv)

/-- C10 witness: a schema-valid workflow step with only `command` set: the
identity evaluator keeps `"echo"` and removes the empty string, the surviving
element is truthy, and every other field is unchanged. -/
theorem resolveStepTemplates_spec_witness :
    (resolveStepTemplates id
        { name := some "w", command := some [Value.str "echo", Value.str ""] }).command =
      some [Value.str "echo"] ∧
    (∀ v ∈ [Value.str "echo"], truthy v = true) ∧
    (resolveStepTemplates id
        { name := some "w", command := some [Value.str "echo", Value.str ""] }).gardenCommand =
      none ∧
    (resolveStepTemplates id
        { name := some "w", command := some [Value.str "echo", Value.str ""] }).exec = none ∧
    (resolveStepTemplates id
        { name := some "w", command := some [Value.str "echo", Value.str ""] }).script = none ∧
    (resolveStepTemplates id
        { name := some "w", command := some [Value.str "echo", Value.str ""] }).name =
      some "w" ∧
    (resolveStepTemplates id
        { name := some "w", command := some [Value.str "echo", Value.str ""] }).skip = false := by
  have h := resolveStepTemplates_spec id
    { name := some "w", command := some [Value.str "echo", Value.str ""] }
  have hcmd : (resolveStepTemplates id
      { name := some "w", command := some [Value.str "echo", Value.str ""] }).command =
      some [Value.str "echo"] := h.1.trans (by decide)
  exact ⟨hcmd, h.2.2.1 [Value.str "echo"] (Or.inl hcmd), h.2.1.trans rfl,
    h.2.2.2.1.trans rfl, h.2.2.2.2.1.trans rfl, h.2.2.2.2.2.1, h.2.2.2.2.2.2.2.1⟩

end Garden
